import Mathlib

/-!
Shallow embedding of `PlayingCardEntropySource.py`: a codec between ordered
sequences of 31 distinct playing cards and arbitrary-precision integers in
`[0, 52!/(52-31)! - 1]`, together with its input validators.

Cards are modelled as two-character strings (rank then suit), exactly the
tokens the Python program manipulates.  Python's arbitrary-precision `int`
is modelled by `Nat`/`Int`; Python's floored `//` and `%` on possibly
negative values are `Int.fdiv` and `Int.fmod`.  Functions that can raise
exceptions return `Except Err _`; list indexing that can raise `IndexError`
returns `Option`.
-/

namespace PlayingCardEntropy

/-- The exception classes of the module (messages omitted). -/
inductive Err where
  | TooFewCardsError
  | TooManyCardsError
  | UnrecognisedCardRankError
  | UnrecognisedCardSuitError
  | DuplicatedCardsError
  | HexValueTooLargeError
  deriving DecidableEq, Repr

/-- `FACTORIAL_52 = factorial(52)`. -/
def FACTORIAL_52 : Nat := Nat.factorial 52

/-- `UPPER_LIMIT = FACTORIAL_52 // factorial(52-31) - 1`. -/
def UPPER_LIMIT : Nat := FACTORIAL_52 / Nat.factorial (52 - 31) - 1

/-- `CARD_RANKS = "A23456789TJQK"` as a list of characters. -/
def CARD_RANKS : List Char := "A23456789TJQK".toList

/-- `CARD_SUITS = "SHDC"` as a list of characters. -/
def CARD_SUITS : List Char := "SHDC".toList

/-- `ALL_CARDS = [(rank + suit) for suit in CARD_SUITS for rank in CARD_RANKS]`:
outer loop over suits, inner loop over ranks. -/
def ALL_CARDS : List String :=
  CARD_SUITS.flatMap (fun suit => CARD_RANKS.map (fun rank => String.mk [rank, suit]))

/-- `enforce_62_characters`: raise `TooFewCardsError` below 62 characters,
`TooManyCardsError` above 62 characters. -/
def enforce_62_characters (argument : String) : Except Err Unit :=
  if argument.length < 62 then Except.error Err.TooFewCardsError
  else if argument.length > 62 then Except.error Err.TooManyCardsError
  else Except.ok ()

/-- The slice `cleanString[i:i+2]` of Python (at most two characters from
position `i`). -/
def slice2 (s : String) (i : Nat) : String :=
  String.mk ((s.toList.drop i).take 2)

/-- The token list `[cleanString[i:i+2] for i in range(0, 62, 2)]`. -/
def tokensOf (s : String) : List String :=
  (List.range' 0 31 2).map (fun i => slice2 s i)

/-- Python's `i[0]` on a card token (tokens always have two characters when
this is reached; out-of-range access would be an `IndexError`). -/
def rankChar (t : String) : Char := t.toList.getD 0 '?'

/-- Python's `i[1]` on a card token. -/
def suitChar (t : String) : Char := t.toList.getD 1 '?'

/-- `check_if_cards`: for each token in order, raise
`UnrecognisedCardRankError` if its first character is not a rank, then
`UnrecognisedCardSuitError` if its second character is not a suit. -/
def check_if_cards : List String → Except Err Unit
  | [] => Except.ok ()
  | i :: rest =>
    if rankChar i ∉ CARD_RANKS then Except.error Err.UnrecognisedCardRankError
    else if suitChar i ∉ CARD_SUITS then Except.error Err.UnrecognisedCardSuitError
    else check_if_cards rest

/-- `check_for_card_repetition`: raise `DuplicatedCardsError` unless
`len(set(listOfCards)) == 31`; `set` cardinality is the number of distinct
elements, i.e. the length of `dedup`. -/
def check_for_card_repetition (listOfCards : List String) : Except Err Unit :=
  if (listOfCards.dedup).length = 31 then Except.ok ()
  else Except.error Err.DuplicatedCardsError

/-- `string_to_card_list`: length check, split into 31 two-character tokens,
card-format check, repetition check. -/
def string_to_card_list (cleanString : String) : Except Err (List String) :=
  match enforce_62_characters cleanString with
  | Except.error e => Except.error e
  | Except.ok _ =>
    let listOfCards := tokensOf cleanString
    match check_if_cards listOfCards with
    | Except.error e => Except.error e
    | Except.ok _ =>
      match check_for_card_repetition listOfCards with
      | Except.error e => Except.error e
      | Except.ok _ => Except.ok listOfCards

/-- The first loop of `card_list_to_hex`.  In the Python source
`deck = ALL_CARDS` binds `deck` to the very module-level list object, and
`deck.remove(card)` mutates it; the loop both builds `listOfNumbers` and
consumes the deck.  This returns the pair (listOfNumbers, final deck state),
the second component being the state the module-level `ALL_CARDS` is left in
after the call. -/
def indexLoop : List String → List String → List Nat × List String
  | deck, [] => ([], deck)
  | deck, card :: rest =>
    let step := indexLoop (deck.erase card) rest
    (deck.indexOf card :: step.1, step.2)

/-- The per-position indices of the cards against a shrinking deck. -/
def deckNumbers (deck : List String) (listOfCards : List String) : List Nat :=
  (indexLoop deck listOfCards).1

/-- The positional weight `FACTORIAL_52 // factorial(52-n)` applied to
`listOfNumbers[n]`. -/
def weight (n : Nat) : Nat := FACTORIAL_52 / Nat.factorial (52 - n)

/-- The integer computed by `card_list_to_hex`: each of the 31 positional
indices is scaled by its weight and the results are summed.  (The lists at
this point always have exactly 31 entries: the input is a validated list of
31 cards.) -/
def card_list_to_value (listOfCards : List String) : Nat :=
  (List.zipWith (fun a b => a * b) (deckNumbers ALL_CARDS listOfCards)
    ((List.range 31).map weight)).sum

/-- Python's `hex(result)[2:]`: lowercase hexadecimal digits, no prefix,
`"0"` for zero. -/
def hexString (n : Nat) : String := String.mk (Nat.toDigits 16 n)

/-- `card_list_to_hex` (the returned string). -/
def card_list_to_hex (listOfCards : List String) : String :=
  hexString (card_list_to_value listOfCards)

/-- `string_to_hex = card_list_to_hex(string_to_card_list(cleanString))`. -/
def string_to_hex (cleanString : String) : Except Err String :=
  (string_to_card_list cleanString).map card_list_to_hex

/-- The divisors `52 - i` for `i in range(31)` used by the decode loop. -/
def divisors31 : List Int := (List.range 31).map (fun (i : Nat) => (52 : Int) - (i : Int))

/-- The first loop of `valid_integer_to_card_string`: repeatedly take
Python's floored quotient and remainder (`Int.fdiv` / `Int.fmod`) by the
given divisors, collecting the remainders.  Each remainder is nonnegative
because every divisor is positive, so `toNat` is lossless. -/
def remaindersOver : Int → List Int → List Nat
  | _, [] => []
  | value, d :: ds => ((value.fmod d).toNat) :: remaindersOver (value.fdiv d) ds

/-- The second loop of `valid_integer_to_card_string`: `deck.pop(cardNumber)`
for each recorded number, appending the popped card.  As in `indexLoop`,
`deck = ALL_CARDS` aliases the module-level list, so the pops consume it; the
second component is the final state of that list.  An out-of-range `pop`
(Python `IndexError`) is the `none` outcome. -/
def popLoop : List Nat → List String → Option (List String) × List String
  | [], deck => (some [], deck)
  | n :: ns, deck =>
    match deck[n]? with
    | none => (none, deck)
    | some card =>
      let step := popLoop ns (deck.eraseIdx n)
      (step.1.map (fun rest => card :: rest), step.2)

/-- The card list produced by `valid_integer_to_card_string`. -/
def popCards (ns : List Nat) (deck : List String) : Option (List String) :=
  (popLoop ns deck).1

/-- The list of 31 cards decoded from an integer. -/
def valid_integer_to_card_list (value : Int) : Option (List String) :=
  popCards (remaindersOver value divisors31) ALL_CARDS

/-- `valid_integer_to_card_string`: the decoded cards joined by single
spaces. -/
def valid_integer_to_card_string (value : Int) : Option String :=
  (valid_integer_to_card_list value).map (fun l => String.intercalate " " l)

/-- `enforce_upper_limit`: raise `HexValueTooLargeError` when
`value > UPPER_LIMIT`; no lower-bound check is performed. -/
def enforce_upper_limit (value : Int) : Except Err Unit :=
  if value > (UPPER_LIMIT : Int) then Except.error Err.HexValueTooLargeError
  else Except.ok ()

/-- `integer_to_card_string`: enforce the upper limit, then convert. -/
def integer_to_card_string (value : Int) : Except Err (Option String) := do
  let _ ← enforce_upper_limit value
  Except.ok (valid_integer_to_card_string value)

/-- The sixteen digits accepted (after upper-casing) by base-16 parsing. -/
def HEX_DIGITS : List Char := "0123456789ABCDEF".toList

/-- The value of an uppercase hexadecimal digit. -/
def hexVal (c : Char) : Option Nat :=
  if c ∈ HEX_DIGITS then some (HEX_DIGITS.indexOf c) else none

/-- Modelled from Python's `int(s, 16)` digit grammar: the digits after the
first one, where a single underscore may separate two digits (no doubled and
no trailing underscore).  The flag records whether the previous character
was an underscore, in which case a digit must follow. -/
def hexDigitsVal : Bool → Nat → List Char → Option Nat
  | false, acc, [] => some acc
  | true, _, [] => none
  | u, acc, c :: cs =>
    if c = '_' then (if u then none else hexDigitsVal true acc cs)
    else
      match hexVal c with
      | some d => hexDigitsVal false (16 * acc + d) cs
      | none => none

/-- A nonempty digit body: the first character must be a digit. -/
def parseHexBody (l : List Char) : Option Nat :=
  match l with
  | [] => none
  | c :: cs =>
    match hexVal c with
    | some d => hexDigitsVal false d cs
    | none => none

/-- After an optional sign: an optional `0X` marker (the input has already
been upper-cased), optionally followed by one underscore, then digits. -/
def parseAfterSign (l : List Char) : Option Nat :=
  match l with
  | c0 :: c1 :: rest =>
    if c0 = '0' ∧ c1 = 'X' then
      match rest with
      | c2 :: rest2 => if c2 = '_' then parseHexBody rest2 else parseHexBody (c2 :: rest2)
      | [] => parseHexBody []
    else parseHexBody (c0 :: c1 :: rest)
  | _ => parseHexBody l

/-- Modelled from Python's builtin `int(cleanString, 16)` on an upper-cased,
whitespace-free string: optional sign, optional `0X` marker, hexadecimal
digits with single underscores allowed between digits.  `none` is Python's
`ValueError`. -/
def int_base16 (s : String) : Option Int :=
  match s.toList with
  | c :: rest =>
    if c = '+' then (parseAfterSign rest).map (fun (n : Nat) => (n : Int))
    else if c = '-' then (parseAfterSign rest).map (fun (n : Nat) => -(n : Int))
    else (parseAfterSign (c :: rest)).map (fun (n : Nat) => (n : Int))
  | [] => (parseAfterSign []).map (fun (n : Nat) => (n : Int))

/-- `decide_how_to_convert` on an already cleaned (whitespace-stripped,
upper-cased) string: try `int(cleanString, 16)`; on `ValueError` take the
card-to-hex path (`inl`), otherwise the integer-to-cards path (`inr`). -/
def decide_how_to_convert (cleanString : String) :
    Sum (Except Err String) (Except Err (Option String)) :=
  match int_base16 cleanString with
  | none => Sum.inl (string_to_hex cleanString)
  | some value => Sum.inr (integer_to_card_string value)

/-! ### Arithmetic helpers: falling-factorial products -/

/-- The falling-factorial product `m * (m-1) * ... * (m-n+1)`. -/
def descProd : Nat → Nat → Nat
  | _, 0 => 1
  | m, n + 1 => m * descProd (m - 1) n

theorem descProd_mul_factorial :
    ∀ (n m : Nat), n ≤ m → descProd m n * Nat.factorial (m - n) = Nat.factorial m := by
  intro n
  induction n with
  | zero => intro m _; simp [descProd]
  | succ k ih =>
    intro m hm
    obtain ⟨m', rfl⟩ : ∃ m', m = m' + 1 := ⟨m - 1, by omega⟩
    have hk : k ≤ m' := by omega
    have hsub : m' + 1 - (k + 1) = m' - k := by omega
    calc descProd (m' + 1) (k + 1) * Nat.factorial (m' + 1 - (k + 1))
        = (m' + 1) * (descProd m' k * Nat.factorial (m' - k)) := by
          simp only [descProd, Nat.add_sub_cancel, hsub]; ring
      _ = (m' + 1) * Nat.factorial m' := by rw [ih m' hk]
      _ = Nat.factorial (m' + 1) := (Nat.factorial_succ m').symm

theorem weight_eq_descProd {n : Nat} (h : n ≤ 52) : weight n = descProd 52 n := by
  have hmul := descProd_mul_factorial n 52 h
  have hpos : 0 < Nat.factorial (52 - n) := Nat.factorial_pos _
  unfold weight FACTORIAL_52
  exact Nat.div_eq_of_eq_mul_left hpos hmul.symm

theorem UPPER_LIMIT_succ : UPPER_LIMIT + 1 = descProd 52 31 := by decide

/-! ### The recursive shape of the encoded value -/

/-- `valueOfNumbers m [n0, n1, ...] = n0 + m * (n1 + (m-1) * (...))`: the
value of a list of digits in the falling base starting at `m`. -/
def valueOfNumbers : Nat → List Nat → Nat
  | _, [] => 0
  | m, n :: ns => n + m * valueOfNumbers (m - 1) ns

theorem sum_zipWith_map_mul :
    ∀ (ns ws : List Nat) (m : Nat),
      (List.zipWith (fun a b => a * b) ns (ws.map (fun w => m * w))).sum =
        m * (List.zipWith (fun a b => a * b) ns ws).sum := by
  intro ns
  induction ns with
  | nil => intro ws m; simp
  | cons n ns ih =>
    intro ws m
    cases ws with
    | nil => simp
    | cons w ws => simp [ih ws m]; ring

theorem sum_zipWith_range_descProd :
    ∀ (ns : List Nat) (k m : Nat), ns.length ≤ k →
      (List.zipWith (fun a b => a * b) ns ((List.range k).map (descProd m))).sum =
        valueOfNumbers m ns := by
  intro ns
  induction ns with
  | nil => intro k m _; simp [valueOfNumbers]
  | cons n ns ih =>
    intro k m hk
    obtain ⟨k', rfl⟩ : ∃ k', k = k' + 1 := ⟨k - 1, by simp at hk; omega⟩
    rw [List.range_succ_eq_map, List.map_cons, List.map_map]
    have hmap : (List.range k').map (descProd m ∘ (· + 1)) =
        ((List.range k').map (descProd (m - 1))).map (fun w => m * w) := by
      rw [List.map_map]
      exact List.map_congr_left (fun a _ => rfl)
    rw [List.zipWith_cons_cons, hmap, List.sum_cons, sum_zipWith_map_mul]
    have hlen : ns.length ≤ k' := by simp at hk; omega
    rw [ih k' (m - 1) hlen]
    simp [valueOfNumbers, descProd]

/-! ### indexOf / erase / eraseIdx helpers for card lists -/

theorem indexOf_lt_length_of_mem {l : List String} {a : String} (h : a ∈ l) :
    l.indexOf a < l.length := by
  induction l with
  | nil => simp at h
  | cons b t ih =>
    by_cases hba : b = a
    · simp [List.indexOf_cons, hba]
    · have ha : a ∈ t := by
        rcases List.mem_cons.mp h with h1 | h1
        · exact absurd h1.symm hba
        · exact h1
      have hbeq : (b == a) = false := beq_eq_false_iff_ne.mpr hba
      simp [List.indexOf_cons, hbeq]
      exact ih ha

theorem getElem?_indexOf_self {l : List String} {a : String} (h : a ∈ l) :
    l[l.indexOf a]? = some a := by
  induction l with
  | nil => simp at h
  | cons b t ih =>
    by_cases hba : b = a
    · simp [List.indexOf_cons, hba]
    · have ha : a ∈ t := by
        rcases List.mem_cons.mp h with h1 | h1
        · exact absurd h1.symm hba
        · exact h1
      have hbeq : (b == a) = false := beq_eq_false_iff_ne.mpr hba
      simp [List.indexOf_cons, hbeq]
      exact ih ha

theorem erase_eq_eraseIdx_indexOf :
    ∀ (l : List String) (a : String), a ∈ l → l.erase a = l.eraseIdx (l.indexOf a) := by
  intro l
  induction l with
  | nil => intro a h; simp at h
  | cons b t ih =>
    intro a h
    by_cases hba : b = a
    · subst hba
      simp [List.indexOf_cons]
    · have ha : a ∈ t := by
        rcases List.mem_cons.mp h with h1 | h1
        · exact absurd h1.symm hba
        · exact h1
      have hbeq : (b == a) = false := beq_eq_false_iff_ne.mpr hba
      simp only [List.indexOf_cons, hbeq, cond_false, List.erase_cons, beq_eq_false_iff_ne.mp hbeq, if_neg (beq_eq_false_iff_ne.mp hbeq), List.eraseIdx_cons_succ]
      exact congrArg (List.cons b) (ih a ha)

theorem indexOf_of_getElem? {l : List String} (hnd : l.Nodup) :
    ∀ (r : Nat) (c : String), l[r]? = some c → l.indexOf c = r := by
  induction l with
  | nil => intro r c h; simp at h
  | cons b t ih =>
    intro r c h
    rcases List.nodup_cons.mp hnd with ⟨hbt, hndt⟩
    cases r with
    | zero =>
      simp at h
      simp [List.indexOf_cons, h]
    | succ r' =>
      simp at h
      have hct : c ∈ t := List.getElem?_mem h
      have hbc : (b == c) = false := by
        refine beq_eq_false_iff_ne.mpr ?_
        intro he
        exact hbt (he ▸ hct)
      simp [List.indexOf_cons, hbc, ih hndt r' c h]

/-! ### Unfolding lemmas for the codec loops -/

theorem deckNumbers_nil (deck : List String) : deckNumbers deck [] = [] := rfl

theorem deckNumbers_cons (deck : List String) (card : String) (rest : List String) :
    deckNumbers deck (card :: rest) =
      deck.indexOf card :: deckNumbers (deck.erase card) rest := rfl

theorem deckNumbers_length :
    ∀ (cards deck : List String), (deckNumbers deck cards).length = cards.length := by
  intro cards
  induction cards with
  | nil => intro deck; rfl
  | cons c cs ih => intro deck; simp [deckNumbers_cons, ih]

theorem popCards_nil (deck : List String) : popCards [] deck = some [] := rfl

theorem popCards_cons (n : Nat) (ns : List Nat) (deck : List String) :
    popCards (n :: ns) deck =
      match deck[n]? with
      | none => none
      | some card => (popCards ns (deck.eraseIdx n)).map (fun rest => card :: rest) := by
  cases h : deck[n]? with
  | none => simp [popCards, popLoop, h]
  | some card => simp [popCards, popLoop, h]

theorem card_list_to_value_eq_valueOfNumbers (cards : List String)
    (hlen : cards.length ≤ 31) :
    card_list_to_value cards = valueOfNumbers 52 (deckNumbers ALL_CARDS cards) := by
  unfold card_list_to_value
  have hw : (List.range 31).map weight = (List.range 31).map (descProd 52) := by
    refine List.map_congr_left ?_
    intro n hn
    exact weight_eq_descProd (by simp at hn; omega)
  rw [hw]
  exact sum_zipWith_range_descProd _ 31 52 (by rw [deckNumbers_length]; exact hlen)

/-! ### The interleaved recursive decoder -/

/-- The decode computation with division and popping interleaved: at each
step the divisor is the current deck length.  For the deck sizes reached
from `ALL_CARDS` this agrees with the source's two-phase computation
(remainders with divisors 52, 51, ..., then pops); the agreement is
`popCards_remainders_eq_decodeRec` below. -/
def decodeRec : Nat → List String → Nat → Option (List String)
  | _, _, 0 => some []
  | v, deck, k + 1 =>
    match deck[v % deck.length]? with
    | none => none
    | some card =>
      (decodeRec (v / deck.length) (deck.eraseIdx (v % deck.length)) k).map
        (fun rest => card :: rest)

/-- The divisor chain `m, m-1, ..., m-k+1` as integers. -/
def divChain (m k : Nat) : List Int :=
  (List.range k).map (fun (i : Nat) => (m : Int) - (i : Int))

theorem divisors31_eq_divChain : divisors31 = divChain 52 31 := rfl

theorem divChain_zero (m : Nat) : divChain m 0 = [] := rfl

theorem divChain_succ (m k : Nat) (hm : 1 ≤ m) :
    divChain m (k + 1) = (m : Int) :: divChain (m - 1) k := by
  unfold divChain
  rw [List.range_succ_eq_map, List.map_cons, List.map_map]
  refine congrArg₂ _ (by simp) (List.map_congr_left ?_)
  intro i _
  show (m : Int) - ((i + 1 : Nat) : Int) = ((m - 1 : Nat) : Int) - (i : Nat)
  have : ((m - 1 : Nat) : Int) = (m : Int) - 1 := by
    have := Nat.cast_sub (R := Int) hm
    simpa using this
  rw [this]
  push_cast
  ring

theorem popCards_remainders_eq_decodeRec :
    ∀ (k : Nat) (deck : List String) (v : Nat), k ≤ deck.length →
      popCards (remaindersOver (v : Int) (divChain deck.length k)) deck =
        decodeRec v deck k := by
  intro k
  induction k with
  | zero => intro deck v _; rfl
  | succ k ih =>
    intro deck v hk
    have hm : 1 ≤ deck.length := by omega
    rw [divChain_succ _ _ hm]
    have hmod : ((v : Int).fmod (deck.length : Int)).toNat = v % deck.length := by
      rw [Int.fmod_eq_emod _ (by positivity)]
      rw [← Int.natCast_mod]
      exact Int.toNat_natCast _
    have hdiv : (v : Int).fdiv (deck.length : Int) = ((v / deck.length : Nat) : Int) := by
      rw [Int.fdiv_eq_ediv _ (by positivity)]
      exact (Int.natCast_div v deck.length).symm
    show popCards (((v : Int).fmod (deck.length : Int)).toNat ::
      remaindersOver ((v : Int).fdiv (deck.length : Int)) (divChain (deck.length - 1) k)) deck =
      decodeRec v deck (k + 1)
    rw [hmod, hdiv, popCards_cons]
    show _ = decodeRec v deck (k + 1)
    unfold decodeRec
    cases hget : deck[v % deck.length]? with
    | none => simp [hget]
    | some card =>
      simp only [hget]
      have hr : v % deck.length < deck.length := Nat.mod_lt _ (by omega)
      have hlen : (deck.eraseIdx (v % deck.length)).length = deck.length - 1 := by
        rw [List.length_eraseIdx]
        simp [hr]
      have := ih (deck.eraseIdx (v % deck.length)) (v / deck.length) (by omega)
      rw [hlen] at this
      rw [this]

/-! ### Round-trip lemmas, generalized over the deck -/

theorem valueOfNumbers_lt_descProd :
    ∀ (cards deck : List String), cards.Nodup → (∀ x ∈ cards, x ∈ deck) →
      valueOfNumbers deck.length (deckNumbers deck cards) <
        descProd deck.length cards.length := by
  intro cards
  induction cards with
  | nil => intro deck _ _; simp [deckNumbers_nil, valueOfNumbers, descProd]
  | cons c cs ih =>
    intro deck hnd hmem
    rcases List.nodup_cons.mp hnd with ⟨hc, hnds⟩
    have hcd : c ∈ deck := hmem c (List.mem_cons_self _ _)
    have hidx : deck.indexOf c < deck.length := indexOf_lt_length_of_mem hcd
    have herase : (deck.erase c).length = deck.length - 1 :=
      List.length_erase_of_mem hcd
    have hsub : ∀ x ∈ cs, x ∈ deck.erase c := by
      intro x hx
      have hxne : x ≠ c := fun he => hc (he ▸ hx)
      exact (List.mem_erase_of_ne hxne).mpr (hmem x (List.mem_cons_of_mem _ hx))
    have hrec := ih (deck.erase c) hnds hsub
    rw [herase] at hrec
    rw [deckNumbers_cons]
    show valueOfNumbers deck.length (deck.indexOf c :: deckNumbers (deck.erase c) cs) <
      descProd deck.length (cs.length + 1)
    have hstep : valueOfNumbers deck.length
        (deck.indexOf c :: deckNumbers (deck.erase c) cs) =
        deck.indexOf c + deck.length *
          valueOfNumbers (deck.length - 1) (deckNumbers (deck.erase c) cs) := by
      simp [valueOfNumbers]
    rw [hstep]
    show _ < deck.length * descProd (deck.length - 1) cs.length
    calc deck.indexOf c + deck.length *
          valueOfNumbers (deck.length - 1) (deckNumbers (deck.erase c) cs)
        < deck.length + deck.length *
          valueOfNumbers (deck.length - 1) (deckNumbers (deck.erase c) cs) := by omega
      _ = deck.length *
          (valueOfNumbers (deck.length - 1) (deckNumbers (deck.erase c) cs) + 1) := by ring
      _ ≤ deck.length * descProd (deck.length - 1) cs.length :=
          Nat.mul_le_mul_left _ (by omega)

theorem decodeRec_valueOfNumbers :
    ∀ (cards deck : List String), cards.Nodup → (∀ x ∈ cards, x ∈ deck) →
      decodeRec (valueOfNumbers deck.length (deckNumbers deck cards)) deck cards.length =
        some cards := by
  intro cards
  induction cards with
  | nil => intro deck _ _; rfl
  | cons c cs ih =>
    intro deck hnd hmem
    rcases List.nodup_cons.mp hnd with ⟨hc, hnds⟩
    have hcd : c ∈ deck := hmem c (List.mem_cons_self _ _)
    have hidx : deck.indexOf c < deck.length := indexOf_lt_length_of_mem hcd
    have hm : 0 < deck.length := by omega
    have hsub : ∀ x ∈ cs, x ∈ deck.erase c := by
      intro x hx
      have hxne : x ≠ c := fun he => hc (he ▸ hx)
      exact (List.mem_erase_of_ne hxne).mpr (hmem x (List.mem_cons_of_mem _ hx))
    set v' := valueOfNumbers (deck.length - 1) (deckNumbers (deck.erase c) cs) with hv'
    have hval : valueOfNumbers deck.length (deckNumbers deck (c :: cs)) =
        deck.indexOf c + deck.length * v' := by
      rw [deckNumbers_cons]; simp [valueOfNumbers, hv']
    have hmod : (deck.indexOf c + deck.length * v') % deck.length = deck.indexOf c := by
      rw [Nat.add_mul_mod_self_left]
      exact Nat.mod_eq_of_lt hidx
    have hdiv : (deck.indexOf c + deck.length * v') / deck.length = v' := by
      rw [Nat.add_mul_div_left _ _ hm, Nat.div_eq_of_lt hidx, Nat.zero_add]
    have hget : deck[deck.indexOf c]? = some c := getElem?_indexOf_self hcd
    have herase : deck.eraseIdx (deck.indexOf c) = deck.erase c :=
      (erase_eq_eraseIdx_indexOf deck c hcd).symm
    have herlen : (deck.erase c).length = deck.length - 1 :=
      List.length_erase_of_mem hcd
    show decodeRec (valueOfNumbers deck.length (deckNumbers deck (c :: cs))) deck
      (cs.length + 1) = some (c :: cs)
    rw [hval]
    unfold decodeRec
    rw [hmod, hdiv, hget, herase]
    have hrec := ih (deck.erase c) hnds hsub
    rw [herlen] at hrec
    rw [hrec]
    rfl

theorem encode_decodeRec :
    ∀ (k : Nat) (deck : List String) (v : Nat), deck.Nodup → k ≤ deck.length →
      v < descProd deck.length k →
      ∃ cards, decodeRec v deck k = some cards ∧ cards.length = k ∧
        (∀ x ∈ cards, x ∈ deck) ∧ cards.Nodup ∧
        valueOfNumbers deck.length (deckNumbers deck cards) = v := by
  intro k
  induction k with
  | zero =>
    intro deck v _ _ hv
    refine ⟨[], rfl, rfl, by simp, List.nodup_nil, ?_⟩
    simp [descProd] at hv
    simp [deckNumbers_nil, valueOfNumbers, hv]
  | succ k ih =>
    intro deck v hnd hk hv
    have hm : 0 < deck.length := by omega
    have hr : v % deck.length < deck.length := Nat.mod_lt _ hm
    have hget : deck[v % deck.length]? = some (deck[v % deck.length]) :=
      List.getElem?_eq_getElem hr
    set c := deck[v % deck.length] with hcdef
    have hcd : c ∈ deck := List.getElem_mem hr
    have hidx : deck.indexOf c = v % deck.length := indexOf_of_getElem? hnd _ _ hget
    have herase : deck.eraseIdx (v % deck.length) = deck.erase c := by
      rw [← hidx]
      exact (erase_eq_eraseIdx_indexOf deck c hcd).symm
    have herlen : (deck.erase c).length = deck.length - 1 :=
      List.length_erase_of_mem hcd
    have hnd' : (deck.erase c).Nodup := hnd.erase c
    obtain ⟨m', hm'⟩ : ∃ m', deck.length = m' + 1 := ⟨deck.length - 1, by omega⟩
    have hshape : descProd deck.length (k + 1) =
        deck.length * descProd (deck.length - 1) k := by rw [hm']; rfl
    have hdivlt : v / deck.length < descProd (deck.length - 1) k := by
      rw [Nat.div_lt_iff_lt_mul hm]
      rw [Nat.mul_comm]
      exact hshape ▸ hv
    have hk' : k ≤ (deck.erase c).length := by omega
    have hvlt' : v / deck.length < descProd (deck.erase c).length k := by
      rw [herlen]; exact hdivlt
    obtain ⟨cards', hdec', hlen', hmem', hnds', hval'⟩ :=
      ih (deck.erase c) (v / deck.length) hnd' hk' hvlt'
    refine ⟨c :: cards', ?_, by simp [hlen'], ?_, ?_, ?_⟩
    · unfold decodeRec
      rw [hget, herase, hdec']
      rfl
    · intro x hx
      rcases List.mem_cons.mp hx with h1 | h1
      · exact h1 ▸ hcd
      · exact (List.erase_sublist c deck).subset (hmem' x h1)
    · refine List.nodup_cons.mpr ⟨?_, hnds'⟩
      intro hcmem
      exact hnd.not_mem_erase (hmem' c hcmem)
    · rw [deckNumbers_cons]
      have hstep : valueOfNumbers deck.length
          (deck.indexOf c :: deckNumbers (deck.erase c) cards') =
          deck.indexOf c + deck.length *
            valueOfNumbers (deck.length - 1) (deckNumbers (deck.erase c) cards') := by
        simp [valueOfNumbers]
      rw [hstep, herlen] at *
      rw [hval', hidx]
      exact Nat.mod_add_div v deck.length

/-! ### Totality of the decoding pops for arbitrary integers -/

theorem popCards_remainders_total :
    ∀ (k : Nat) (deck : List String) (v : Int), k ≤ deck.length →
      ∃ cards, popCards (remaindersOver v (divChain deck.length k)) deck = some cards ∧
        cards.length = k := by
  intro k
  induction k with
  | zero => intro deck v _; exact ⟨[], rfl, rfl⟩
  | succ k ih =>
    intro deck v hk
    have hm : 1 ≤ deck.length := by omega
    have hmpos : (0 : Int) < (deck.length : Int) := by positivity
    rw [divChain_succ _ _ hm]
    have hrlow : (0 : Int) ≤ v.fmod (deck.length : Int) := Int.fmod_nonneg' v hmpos
    have hrhigh : v.fmod (deck.length : Int) < (deck.length : Int) :=
      Int.fmod_lt_of_pos v hmpos
    have hr : (v.fmod (deck.length : Int)).toNat < deck.length := by omega
    have hget : deck[(v.fmod (deck.length : Int)).toNat]? =
        some (deck[(v.fmod (deck.length : Int)).toNat]) :=
      List.getElem?_eq_getElem hr
    have hlen : (deck.eraseIdx ((v.fmod (deck.length : Int)).toNat)).length =
        deck.length - 1 := by
      rw [List.length_eraseIdx]
      simp [hr]
    obtain ⟨cards', hdec', hlen'⟩ :=
      ih (deck.eraseIdx ((v.fmod (deck.length : Int)).toNat))
        (v.fdiv (deck.length : Int)) (by omega)
    rw [hlen] at hdec'
    refine ⟨deck[(v.fmod (deck.length : Int)).toNat] :: cards', ?_, by simp [hlen']⟩
    show popCards ((v.fmod (deck.length : Int)).toNat ::
      remaindersOver (v.fdiv (deck.length : Int)) (divChain (deck.length - 1) k)) deck = _
    rw [popCards_cons, hget, hdec']
    rfl

/-! ### Concrete facts about the canonical deck -/

theorem ALL_CARDS_length : ALL_CARDS.length = 52 := by decide

theorem ALL_CARDS_nodup : ALL_CARDS.Nodup := by decide

/-- The card sequence whose positional index is maximal at every step: each
step selects the last card of the remaining working deck (index
`deck.length - 1`), i.e. the last 31 cards of the canonical order, taken
from the back. -/
def maxCardSequence : List String := (ALL_CARDS.reverse).take 31

/-! ### Claim theorems -/

/-- **C1.** For every valid CardSequence `c` (a list of exactly 31
pairwise-distinct cards drawn from the 52-card deck), decoding the integer
produced by encoding `c` returns `c` itself, order preserved:
`decode (encode c) = c`, both as the card list and as the space-joined
output string. -/
theorem c1_decode_encode_roundtrip (cards : List String)
    (hlen : cards.length = 31) (hnd : cards.Nodup)
    (hmem : ∀ x ∈ cards, x ∈ ALL_CARDS) :
    valid_integer_to_card_list ((card_list_to_value cards : Nat) : Int) = some cards ∧
    valid_integer_to_card_string ((card_list_to_value cards : Nat) : Int) =
      some (String.intercalate " " cards) := by
  have hval : card_list_to_value cards =
      valueOfNumbers 52 (deckNumbers ALL_CARDS cards) :=
    card_list_to_value_eq_valueOfNumbers cards (by omega)
  have hbridge := popCards_remainders_eq_decodeRec 31 ALL_CARDS
    (card_list_to_value cards) (by rw [ALL_CARDS_length]; omega)
  have hdec := decodeRec_valueOfNumbers cards ALL_CARDS hnd hmem
  rw [ALL_CARDS_length, hlen] at hdec
  have hlist : valid_integer_to_card_list ((card_list_to_value cards : Nat) : Int) =
      some cards := by
    unfold valid_integer_to_card_list
    rw [divisors31_eq_divChain]
    rw [show divChain 52 31 = divChain ALL_CARDS.length 31 by rw [ALL_CARDS_length]]
    rw [hbridge, hval, hdec]
  exact ⟨hlist, by unfold valid_integer_to_card_string; rw [hlist]; rfl⟩

/-- Witness for C1 at the first 31 cards of the canonical deck. -/
theorem c1_witness :
    valid_integer_to_card_list
        ((card_list_to_value (ALL_CARDS.take 31) : Nat) : Int) =
      some (ALL_CARDS.take 31) :=
  (c1_decode_encode_roundtrip (ALL_CARDS.take 31) (by decide) (by decide)
    (by decide)).1

/-- **C2.** For every integer `v` with `0 ≤ v ≤ UPPER_LIMIT`, encoding the
31-card sequence produced by decoding `v` returns `v` itself:
`encode (decode v) = v`. -/
theorem c2_encode_decode_roundtrip (v : Int) (h0 : 0 ≤ v)
    (hup : v ≤ (UPPER_LIMIT : Int)) :
    ∃ cards, valid_integer_to_card_list v = some cards ∧ cards.length = 31 ∧
      ((card_list_to_value cards : Nat) : Int) = v := by
  obtain ⟨n, rfl⟩ : ∃ n : Nat, v = (n : Int) := ⟨v.toNat, by omega⟩
  have hn : n ≤ UPPER_LIMIT := by exact_mod_cast hup
  have hnlt : n < descProd 52 31 := by
    have := UPPER_LIMIT_succ
    omega
  have hnlt' : n < descProd ALL_CARDS.length 31 := by rw [ALL_CARDS_length]; exact hnlt
  obtain ⟨cards, hdec, hlen, _, _, hval⟩ :=
    encode_decodeRec 31 ALL_CARDS n ALL_CARDS_nodup (by rw [ALL_CARDS_length]; omega) hnlt'
  refine ⟨cards, ?_, hlen, ?_⟩
  · unfold valid_integer_to_card_list
    rw [divisors31_eq_divChain]
    rw [show divChain 52 31 = divChain ALL_CARDS.length 31 by rw [ALL_CARDS_length]]
    rw [popCards_remainders_eq_decodeRec 31 ALL_CARDS n (by rw [ALL_CARDS_length]; omega)]
    exact hdec
  · have : card_list_to_value cards = n := by
      rw [card_list_to_value_eq_valueOfNumbers cards (by omega)]
      rw [← ALL_CARDS_length]
      exact hval
    exact_mod_cast this

/-- Witness for C2 at `v = 1`. -/
theorem c2_witness :
    ∃ cards, valid_integer_to_card_list 1 = some cards ∧ cards.length = 31 ∧
      ((card_list_to_value cards : Nat) : Int) = 1 :=
  c2_encode_decode_roundtrip 1 (by decide) (by decide)

/-- **C6.** Encoding the first 31 cards of the canonical deck, in deck
order, yields the integer 0. -/
theorem c6_first_cards_encode_to_zero : card_list_to_value (ALL_CARDS.take 31) = 0 := by
  decide

/-- **C5.** The CardSequence that maximizes the positional index at every
step (each step's index is `deck.length - 1`, witnessed by the computed
index list 51, 50, ..., 21) encodes to exactly `UPPER_LIMIT`, whose decimal
and hexadecimal renderings are the stated literals; the program's own
lowercase hexadecimal output for it is the same digit string. -/
theorem c5_max_sequence_encodes_upper_limit :
    deckNumbers ALL_CARDS maxCardSequence = (List.range 31).map (fun i => 51 - i) ∧
    card_list_to_value maxCardSequence = UPPER_LIMIT ∧
    UPPER_LIMIT = 1578717708901572902259045031706959124889599999999 ∧
    UPPER_LIMIT = 0x114882682E46B11EADE9F57C1E3E0BBD47FFFFFFF ∧
    card_list_to_hex maxCardSequence = "114882682e46b11eade9f57c1e3e0bbd47fffffff" := by
  refine ⟨by decide, by decide, by decide, by decide, by decide⟩

/-- **C3.** The code does *not* copy the canonical deck: `deck = ALL_CARDS`
aliases the module-level constant, and the `remove`/`pop` calls consume it.
After one encode call on the first 31 cards the module-level list retains
only 21 cards, and after one decode call (value 0) likewise — the final
deck state differs from the canonical 52-card deck, contradicting the
claimed fresh-copy / never-mutated behaviour. -/
theorem c3_canonical_deck_is_mutated :
    (indexLoop ALL_CARDS (ALL_CARDS.take 31)).2.length = 21 ∧
    (indexLoop ALL_CARDS (ALL_CARDS.take 31)).2 ≠ ALL_CARDS ∧
    (popLoop (remaindersOver 0 divisors31) ALL_CARDS).2.length = 21 ∧
    (popLoop (remaindersOver 0 divisors31) ALL_CARDS).2 ≠ ALL_CARDS := by
  refine ⟨by decide, by decide, by decide, by decide⟩

/-! ### Unfolding the validation pipelines -/

theorem integer_to_card_string_eq (value : Int) :
    integer_to_card_string value =
      if (UPPER_LIMIT : Int) < value then Except.error Err.HexValueTooLargeError
      else Except.ok (valid_integer_to_card_string value) := by
  unfold integer_to_card_string enforce_upper_limit
  split <;> rfl

theorem string_to_card_list_eq (s : String) :
    string_to_card_list s =
      match enforce_62_characters s with
      | Except.error e => Except.error e
      | Except.ok _ =>
        match check_if_cards (tokensOf s) with
        | Except.error e => Except.error e
        | Except.ok _ =>
          match check_for_card_repetition (tokensOf s) with
          | Except.error e => Except.error e
          | Except.ok _ => Except.ok (tokensOf s) := by
  rfl

theorem tokensOf_length (s : String) : (tokensOf s).length = 31 := by
  simp [tokensOf]

/-- **C4.** For nonnegative integer input, the integer-to-cards path raises
`HexValueTooLargeError` exactly when the value exceeds `UPPER_LIMIT`; any
value up to `UPPER_LIMIT` passes validation and yields a 31-card sequence;
in particular `UPPER_LIMIT + 1` is rejected. -/
theorem c4_upper_limit_enforcement (v : Int) (h0 : 0 ≤ v) :
    (integer_to_card_string v = Except.error Err.HexValueTooLargeError ↔
      (UPPER_LIMIT : Int) < v) ∧
    (v ≤ (UPPER_LIMIT : Int) →
      ∃ cards, valid_integer_to_card_list v = some cards ∧ cards.length = 31 ∧
        integer_to_card_string v = Except.ok (some (String.intercalate " " cards))) ∧
    integer_to_card_string ((UPPER_LIMIT : Int) + 1) =
      Except.error Err.HexValueTooLargeError := by
  refine ⟨?_, ?_, ?_⟩
  · rw [integer_to_card_string_eq]
    split <;> simp_all
  · intro hle
    obtain ⟨cards, hdec, hlen⟩ : ∃ cards,
        valid_integer_to_card_list v = some cards ∧ cards.length = 31 := by
      obtain ⟨cards, hdec, hlen⟩ :=
        popCards_remainders_total 31 ALL_CARDS v (by rw [ALL_CARDS_length]; omega)
      refine ⟨cards, ?_, hlen⟩
      unfold valid_integer_to_card_list
      rw [divisors31_eq_divChain]
      rw [show divChain 52 31 = divChain ALL_CARDS.length 31 by rw [ALL_CARDS_length]]
      exact hdec
    refine ⟨cards, hdec, hlen, ?_⟩
    rw [integer_to_card_string_eq, if_neg (by omega)]
    unfold valid_integer_to_card_string
    rw [hdec]
    rfl
  · rw [integer_to_card_string_eq, if_pos (by omega)]

/-- Witness for C4: `decode(UPPER_LIMIT + 1)` raises `HexValueTooLargeError`. -/
theorem c4_witness :
    integer_to_card_string ((UPPER_LIMIT : Int) + 1) =
      Except.error Err.HexValueTooLargeError :=
  (c4_upper_limit_enforcement 0 (by omega)).2.2

/-- **C10.** The integer validator checks only the upper bound: every
negative value passes validation and decodes to a 31-card sequence, and
`-1` decodes to the same card sequence as `UPPER_LIMIT` (Python's floored
division and modulo give remainder `divisor - 1` at every step). -/
theorem c10_negative_values_accepted (v : Int) (hneg : v < 0) :
    integer_to_card_string v = Except.ok (valid_integer_to_card_string v) ∧
    (∃ cards, valid_integer_to_card_list v = some cards ∧ cards.length = 31) ∧
    valid_integer_to_card_list (-1) =
      valid_integer_to_card_list ((UPPER_LIMIT : Nat) : Int) := by
  refine ⟨?_, ?_, ?_⟩
  · rw [integer_to_card_string_eq, if_neg (by omega)]
  · obtain ⟨cards, hdec, hlen⟩ :=
      popCards_remainders_total 31 ALL_CARDS v (by rw [ALL_CARDS_length]; omega)
    refine ⟨cards, ?_, hlen⟩
    unfold valid_integer_to_card_list
    rw [divisors31_eq_divChain]
    rw [show divChain 52 31 = divChain ALL_CARDS.length 31 by rw [ALL_CARDS_length]]
    exact hdec
  · decide

/-- Witness for C10 at `v = -1`. -/
theorem c10_witness :
    integer_to_card_string (-1) = Except.ok (valid_integer_to_card_string (-1)) ∧
    (∃ cards, valid_integer_to_card_list (-1) = some cards ∧ cards.length = 31) ∧
    valid_integer_to_card_list (-1) =
      valid_integer_to_card_list ((UPPER_LIMIT : Nat) : Int) :=
  c10_negative_values_accepted (-1) (by omega)

theorem tokensOf_length_two (s : String) (h62 : s.length = 62) :
    ∀ t ∈ tokensOf s, t.length = 2 := by
  intro t ht
  unfold tokensOf at ht
  rcases List.mem_map.mp ht with ⟨i, hi, rfl⟩
  rcases List.mem_range'.mp hi with ⟨j, hj, rfl⟩
  show (slice2 s (0 + 2 * j)).length = 2
  have hdata : s.toList.length = 62 := h62
  unfold slice2
  show ((s.toList.drop (0 + 2 * j)).take 2).length = 2
  rw [List.length_take, List.length_drop, hdata]
  omega

/-- **C7.** For every whitespace-stripped, case-normalized input string,
the length validator raises `TooFewCardsError` iff the length is below 62
and `TooManyCardsError` iff it is above 62; an exactly-62-character string
passes the length check and is split into 31 consecutive two-character
tokens. -/
theorem c7_length_validation (s : String) :
    (enforce_62_characters s = Except.error Err.TooFewCardsError ↔ s.length < 62) ∧
    (enforce_62_characters s = Except.error Err.TooManyCardsError ↔ 62 < s.length) ∧
    (s.length = 62 →
      enforce_62_characters s = Except.ok () ∧ (tokensOf s).length = 31 ∧
      ∀ t ∈ tokensOf s, t.length = 2) := by
  refine ⟨?_, ?_, ?_⟩
  · unfold enforce_62_characters
    split_ifs with h1 h2 <;> simp_all
  · unfold enforce_62_characters
    split_ifs with h1 h2 <;> simp_all <;> omega
  · intro h62
    refine ⟨?_, tokensOf_length s, tokensOf_length_two s h62⟩
    unfold enforce_62_characters
    split_ifs with h1 h2 <;> first | rfl | omega

/-- The first 31 cards of the canonical deck, concatenated: a valid
62-character card-sequence string. -/
def firstCardsString : String := String.join (ALL_CARDS.take 31)

/-- 31 copies of the token `"AS"`: 62 characters of well-formed but
duplicated card tokens. -/
def repeatedAceString : String := String.join (List.replicate 31 "AS")

/-- Witness for C7 at the concrete 62-character string. -/
theorem c7_witness :
    enforce_62_characters firstCardsString = Except.ok () ∧
    (tokensOf firstCardsString).length = 31 ∧
    (∀ t ∈ tokensOf firstCardsString, t.length = 2) :=
  (c7_length_validation firstCardsString).2.2 (by decide)

theorem check_if_cards_ok_of_wf :
    ∀ (l : List String),
      (∀ t ∈ l, rankChar t ∈ CARD_RANKS ∧ suitChar t ∈ CARD_SUITS) →
      check_if_cards l = Except.ok () := by
  intro l
  induction l with
  | nil => intro _; rfl
  | cons t rest ih =>
    intro h
    obtain ⟨h1, h2⟩ := h t (List.mem_cons_self _ _)
    simp only [check_if_cards, h1, h2, not_true_eq_false, if_false]
    exact ih (fun x hx => h x (List.mem_cons_of_mem _ hx))

theorem check_for_card_repetition_iff (l : List String) (hlen : l.length = 31) :
    (check_for_card_repetition l = Except.ok () ↔ l.Nodup) ∧
    (check_for_card_repetition l = Except.error Err.DuplicatedCardsError ↔
      ¬ l.Nodup) := by
  have hded : l.dedup.length = 31 ↔ l.Nodup := by
    constructor
    · intro h
      have hsub : List.Sublist l.dedup l := l.dedup_sublist
      have heq : l.dedup = l := hsub.eq_of_length (by omega)
      rw [← heq]
      exact l.nodup_dedup
    · intro h
      rw [List.dedup_eq_self.mpr h, hlen]
  unfold check_for_card_repetition
  rw [← hded]
  constructor
  · split_ifs with h <;> simp_all
  · split_ifs with h <;> simp_all

/-- **C8.** On an exactly-62-character input whose 31 tokens are all
well-formed cards, validation raises `DuplicatedCardsError` exactly when
some token repeats; with all 31 tokens pairwise distinct, no error is
raised and the CardSequence (the token list) is produced. -/
theorem c8_duplicate_detection (s : String) (hlen : s.length = 62)
    (hwf : ∀ t ∈ tokensOf s, rankChar t ∈ CARD_RANKS ∧ suitChar t ∈ CARD_SUITS) :
    (string_to_card_list s = Except.error Err.DuplicatedCardsError ↔
      ¬ (tokensOf s).Nodup) ∧
    ((tokensOf s).Nodup → string_to_card_list s = Except.ok (tokensOf s)) := by
  have henf : enforce_62_characters s = Except.ok () := by
    unfold enforce_62_characters
    split_ifs with h1 h2 <;> first | rfl | omega
  have hchk := check_if_cards_ok_of_wf (tokensOf s) hwf
  have hrep := check_for_card_repetition_iff (tokensOf s) (tokensOf_length s)
  rw [string_to_card_list_eq, henf, hchk]
  by_cases hnd : (tokensOf s).Nodup
  · rw [hrep.1.mpr hnd]
    constructor
    · simp [hnd]
    · intro _; rfl
  · rw [hrep.2.mpr hnd]
    constructor
    · simp [hnd]
    · intro h; exact absurd h hnd

/-- Witness for C8: the all-`"AS"` 62-character string is rejected with
`DuplicatedCardsError`. -/
theorem c8_witness :
    string_to_card_list repeatedAceString = Except.error Err.DuplicatedCardsError :=
  (c8_duplicate_detection repeatedAceString (by decide) (by decide)).1.mpr (by decide)

/-! ### Characters accepted by the base-16 parser -/

theorem hexVal_mem {c : Char} {d : Nat} (h : hexVal c = some d) : c ∈ HEX_DIGITS := by
  by_cases hc : c ∈ HEX_DIGITS
  · exact hc
  · simp [hexVal, hc] at h

theorem hexDigitsVal_chars :
    ∀ (cs : List Char) (u : Bool) (acc n : Nat), hexDigitsVal u acc cs = some n →
      ∀ c ∈ cs, c = '_' ∨ c ∈ HEX_DIGITS := by
  intro cs
  induction cs with
  | nil => intro u acc n _ c hc; simp at hc
  | cons c cs ih =>
    intro u acc n h x hx
    rcases List.mem_cons.mp hx with rfl | hx'
    · by_cases hu : x = '_'
      · exact Or.inl hu
      · right
        simp only [hexDigitsVal, hu, if_false] at h
        cases hv : hexVal x with
        | none => rw [hv] at h; simp at h
        | some d => exact hexVal_mem hv
    · by_cases hu : c = '_'
      · subst hu
        simp only [hexDigitsVal, if_true] at h
        cases u with
        | true => simp at h
        | false => exact ih true acc n h x hx'
      · simp only [hexDigitsVal, hu, if_false] at h
        cases hv : hexVal c with
        | none => rw [hv] at h; simp at h
        | some d =>
          rw [hv] at h
          exact ih false (16 * acc + d) n h x hx'

theorem parseHexBody_chars {n : Nat} :
    ∀ (l : List Char), parseHexBody l = some n → ∀ c ∈ l, c = '_' ∨ c ∈ HEX_DIGITS := by
  intro l h x hx
  cases l with
  | nil => simp [parseHexBody] at h
  | cons c cs =>
    have hdef : parseHexBody (c :: cs) =
        (match hexVal c with
         | some d => hexDigitsVal false d cs
         | none => none) := rfl
    rw [hdef] at h
    cases hv : hexVal c with
    | none => rw [hv] at h; simp at h
    | some d =>
      rw [hv] at h
      rcases List.mem_cons.mp hx with rfl | hx'
      · exact Or.inr (hexVal_mem hv)
      · exact hexDigitsVal_chars cs false d n h x hx'

theorem parseAfterSign_chars {n : Nat} :
    ∀ (l : List Char), parseAfterSign l = some n →
      ∀ c ∈ l, c = '_' ∨ c = 'X' ∨ c ∈ HEX_DIGITS := by
  have hbody : ∀ (l' : List Char) (c : Char), parseHexBody l' = some n → c ∈ l' →
      c = '_' ∨ c = 'X' ∨ c ∈ HEX_DIGITS := by
    intro l' c h' hc'
    rcases parseHexBody_chars l' h' c hc' with h1 | h1
    · exact Or.inl h1
    · exact Or.inr (Or.inr h1)
  intro l h c hc
  cases l with
  | nil => simp at hc
  | cons c0 l1 =>
    cases l1 with
    | nil =>
      have h' : parseHexBody [c0] = some n := h
      exact hbody _ c h' hc
    | cons c1 rest =>
      cases rest with
      | nil =>
        have hdef : parseAfterSign [c0, c1] =
            (if c0 = '0' ∧ c1 = 'X' then parseHexBody []
             else parseHexBody [c0, c1]) := rfl
        rw [hdef] at h
        by_cases h01 : c0 = '0' ∧ c1 = 'X'
        · rw [if_pos h01] at h
          simp [parseHexBody] at h
        · rw [if_neg h01] at h
          exact hbody _ c h hc
      | cons c2 rest2 =>
        have hdef : parseAfterSign (c0 :: c1 :: c2 :: rest2) =
            (if c0 = '0' ∧ c1 = 'X' then
              (if c2 = '_' then parseHexBody rest2 else parseHexBody (c2 :: rest2))
             else parseHexBody (c0 :: c1 :: c2 :: rest2)) := rfl
        rw [hdef] at h
        by_cases h01 : c0 = '0' ∧ c1 = 'X'
        · rw [if_pos h01] at h
          obtain ⟨rfl, rfl⟩ := h01
          rcases List.mem_cons.mp hc with rfl | hc1
          · right; right; decide
          rcases List.mem_cons.mp hc1 with rfl | hc2
          · right; left; rfl
          by_cases h2 : c2 = '_'
          · rw [if_pos h2] at h
            rcases List.mem_cons.mp hc2 with rfl | hc3
            · exact Or.inl h2
            · exact hbody rest2 c h hc3
          · rw [if_neg h2] at h
            exact hbody (c2 :: rest2) c h hc2
        · rw [if_neg h01] at h
          exact hbody _ c h hc

theorem int_base16_chars {s : String} {v : Int} (h : int_base16 s = some v) :
    ∀ c ∈ s.toList, c = '+' ∨ c = '-' ∨ c = '_' ∨ c = 'X' ∨ c ∈ HEX_DIGITS := by
  intro c hc
  have hsign : ∀ (l' : List Char), (∃ n : Nat, parseAfterSign l' = some n) → c ∈ l' →
      c = '+' ∨ c = '-' ∨ c = '_' ∨ c = 'X' ∨ c ∈ HEX_DIGITS := by
    intro l' hex hc'
    obtain ⟨n, h'⟩ := hex
    rcases parseAfterSign_chars l' h' c hc' with h1 | h1 | h1
    · exact Or.inr (Or.inr (Or.inl h1))
    · exact Or.inr (Or.inr (Or.inr (Or.inl h1)))
    · exact Or.inr (Or.inr (Or.inr (Or.inr h1)))
  cases hl : s.toList with
  | nil => rw [hl] at hc; simp at hc
  | cons c0 rest =>
    rw [hl] at hc
    have hdef : int_base16 s =
        (if c0 = '+' then (parseAfterSign rest).map (fun (n : Nat) => (n : Int))
         else if c0 = '-' then (parseAfterSign rest).map (fun (n : Nat) => -(n : Int))
         else (parseAfterSign (c0 :: rest)).map (fun (n : Nat) => (n : Int))) := by
      unfold int_base16
      rw [hl]
    rw [hdef] at h
    by_cases h0 : c0 = '+'
    · rw [if_pos h0] at h
      rcases List.mem_cons.mp hc with rfl | hc'
      · exact Or.inl h0
      · rcases Option.map_eq_some'.mp h with ⟨n, hn, _⟩
        exact hsign rest ⟨n, hn⟩ hc'
    · rw [if_neg h0] at h
      by_cases h1 : c0 = '-'
      · rw [if_pos h1] at h
        rcases List.mem_cons.mp hc with rfl | hc'
        · exact Or.inr (Or.inl h1)
        · rcases Option.map_eq_some'.mp h with ⟨n, hn, _⟩
          exact hsign rest ⟨n, hn⟩ hc'
      · rw [if_neg h1] at h
        rcases Option.map_eq_some'.mp h with ⟨n, hn, _⟩
        exact hsign (c0 :: rest) ⟨n, hn⟩ hc

theorem int_base16_none_of_HS {s : String}
    (h : 'H' ∈ s.toList ∨ 'S' ∈ s.toList) : int_base16 s = none := by
  cases hres : int_base16 s with
  | none => rfl
  | some v =>
    exfalso
    rcases h with hH | hS
    · rcases int_base16_chars hres 'H' hH with h1 | h1 | h1 | h1 | h1 <;> revert h1 <;> decide
    · rcases int_base16_chars hres 'S' hS with h1 | h1 | h1 | h1 | h1 <;> revert h1 <;> decide

/-! ### Every valid card string contains a heart or a spade -/

/-- The 26 cards whose suit is diamonds or clubs. -/
def DC_CARDS : List String :=
  ['D', 'C'].flatMap (fun suit => CARD_RANKS.map (fun rank => String.mk [rank, suit]))

theorem DC_CARDS_length : DC_CARDS.length = 26 := by decide

theorem token_chars_sub {s : String} {t : String} (ht : t ∈ tokensOf s) :
    ∀ c ∈ t.toList, c ∈ s.toList := by
  intro c hc
  unfold tokensOf at ht
  rcases List.mem_map.mp ht with ⟨i, _, rfl⟩
  unfold slice2 at hc
  have h1 : c ∈ s.toList.drop i := (s.toList.drop i).take_subset 2 hc
  exact (s.toList).drop_subset i h1

theorem list_char_len2 (l : List Char) (h : l.length = 2) :
    l = [l.getD 0 '?', l.getD 1 '?'] := by
  match l, h with
  | [a, b], _ => rfl

theorem token_toList_two {s : String} (hlen : s.length = 62) :
    ∀ t ∈ tokensOf s, t.toList = [rankChar t, suitChar t] := by
  intro t ht
  have h2 : t.length = 2 := tokensOf_length_two s hlen t ht
  have h2' : t.toList.length = 2 := h2
  exact list_char_len2 t.toList h2'

theorem string_mk_toList (t : String) : String.mk t.toList = t := rfl

/-- **C9.** Every valid 31-card sequence string (62 characters, 31 distinct
well-formed tokens) contains at least one `'H'` or `'S'` character; since
those are not hexadecimal digits, `int(s, 16)` fails on it, and the
hex-vs-cards dispatch routes every valid card sequence to the card path. -/
theorem c9_dispatch_routes_cards (s : String) (hlen : s.length = 62)
    (hwf : ∀ t ∈ tokensOf s, rankChar t ∈ CARD_RANKS ∧ suitChar t ∈ CARD_SUITS)
    (hnd : (tokensOf s).Nodup) :
    ('H' ∈ s.toList ∨ 'S' ∈ s.toList) ∧ int_base16 s = none ∧
    decide_how_to_convert s = Sum.inl (string_to_hex s) := by
  have hHS : 'H' ∈ s.toList ∨ 'S' ∈ s.toList := by
    by_contra hcon
    push_neg at hcon
    obtain ⟨hH, hS⟩ := hcon
    have hsub : ∀ t ∈ tokensOf s, t ∈ DC_CARDS := by
      intro t ht
      obtain ⟨hrank, hsuit⟩ := hwf t ht
      have htl : t.toList = [rankChar t, suitChar t] := token_toList_two hlen t ht
      have hsmem : suitChar t ∈ s.toList := by
        refine token_chars_sub ht (suitChar t) ?_
        rw [htl]
        simp
      have hsne : suitChar t ≠ 'H' := fun he => hH (he ▸ hsmem)
      have hsne' : suitChar t ≠ 'S' := fun he => hS (he ▸ hsmem)
      have hsuits : CARD_SUITS = ['S', 'H', 'D', 'C'] := rfl
      rw [hsuits] at hsuit
      have hdc : suitChar t = 'D' ∨ suitChar t = 'C' := by
        rcases List.mem_cons.mp hsuit with h1 | h1
        · exact absurd h1 hsne'
        rcases List.mem_cons.mp h1 with h2 | h2
        · exact absurd h2 hsne
        rcases List.mem_cons.mp h2 with h3 | h3
        · exact Or.inl h3
        rcases List.mem_cons.mp h3 with h4 | h4
        · exact Or.inr h4
        · simp at h4
      have heq : String.mk [rankChar t, suitChar t] = t := by
        rw [← htl]
        exact string_mk_toList t
      unfold DC_CARDS
      refine List.mem_flatMap.mpr ⟨suitChar t, ?_, List.mem_map.mpr ⟨rankChar t, hrank, heq⟩⟩
      rcases hdc with h | h <;> simp [h]
    have hle : (tokensOf s).length ≤ DC_CARDS.length :=
      (hnd.subperm (fun x hx => hsub x hx)).length_le
    rw [tokensOf_length, DC_CARDS_length] at hle
    omega
  have hnone : int_base16 s = none := int_base16_none_of_HS hHS
  refine ⟨hHS, hnone, ?_⟩
  unfold decide_how_to_convert
  rw [hnone]

/-- Witness for C9 at the concrete valid card string. -/
theorem c9_witness :
    ('H' ∈ firstCardsString.toList ∨ 'S' ∈ firstCardsString.toList) ∧
    int_base16 firstCardsString = none ∧
    decide_how_to_convert firstCardsString = Sum.inl (string_to_hex firstCardsString) :=
  c9_dispatch_routes_cards firstCardsString (by decide) (by decide) (by decide)

end PlayingCardEntropy

